import Mathlib

/-!
Verification development for the obsidian-targets progress/lifecycle engine.

The TypeScript source is embedded shallowly:
* JS objects used as string-keyed number maps (`FilesProgress`,
  `progressHistory`) become association lists with JS semantics
  (`mapLookup` = property read, `mapSet` = property write keeping the
  existing slot, `mapDel` = the delete operator).
* JS numbers that hold word counts, millisecond times and history sums
  become `Int` (they are exact integers in every code path modelled here;
  the `-1` sentinel forces a signed type).
* Dates/instants are modelled as integer hours since an arbitrary epoch:
  `setHours(h,0,0,0)` becomes rounding down to a multiple of 24 plus `h`,
  `toISOString().split("T")[0]` becomes the day index `t.fdiv 24`,
  `getDay()` becomes the day index modulo 7, and `addDays d n` (from the
  repository's utils module, absent from the sources) is `d + 24 * n`.
* `getWordCount` and the vault read (both external to the embedded core)
  are abstracted as an explicit measured-count argument to the operations
  that consume them.
* `generateID` (utils module, absent from the sources) is modelled from
  the spec: it produces a fresh id; freshness is supplied by an explicit
  id argument or a monotone counter in the manager state.
-/

/-- JS property read `m[k]`: `none` models `undefined`. -/
def mapLookup {α β : Type} [DecidableEq α] : List (α × β) → α → Option β
  | [], _ => Option.none
  | (k, v) :: rest, key => if k = key then Option.some v else mapLookup rest key

/-- JS property write `m[k] = v`: updates the existing slot in place, else
appends a new property at the end (JS insertion order). -/
def mapSet {α β : Type} [DecidableEq α] : List (α × β) → α → β → List (α × β)
  | [], key, v => [(key, v)]
  | (k, w) :: rest, key, v =>
    if k = key then (key, v) :: rest else (k, w) :: mapSet rest key v

/-- JS `delete m[k]`. -/
def mapDel {α β : Type} [DecidableEq α] (m : List (α × β)) (key : α) : List (α × β) :=
  m.filter (fun kv => kv.1 ≠ key)

/-- JS `x || y` on a possibly-undefined number slot: `undefined` and `0` are
falsy, any other integer is truthy. -/
def jsOr : Option Int → Int → Int
  | Option.some v, d => if v = 0 then d else v
  | Option.none, d => d

/-- `FilesProgress`: a JS object mapping document paths to numbers. -/
abbrev Jmap := List (String × Int)

/-- Sum of the values of a `FilesProgress` object, as in
`Target.getTotalProgress`: `for (const key in progress) total += progress[key]`. -/
def jmapSum (m : Jmap) : Int := (m.map Prod.snd).sum

inductive Period where
  | none
  | daily
  | weekly
deriving DecidableEq, Repr

inductive TKind where
  | wordCount
  | time
deriving DecidableEq, Repr

/-- `Target.isTrackingPath` (src/src/target.ts:62-67):
`path.startsWith(this.path) || this.path === "/"`. -/
def isTrackingPath (tpath docPath : String) : Bool :=
  List.isPrefixOf tpath.data docPath.data || tpath = "/"

/-- `WordCountTarget` (src/src/target.ts:107-222). `plugin` and `isEditing`
carry no progress semantics and are omitted; the id is a `Nat` standing for
the opaque id string. -/
structure WordCountTarget where
  id : Nat
  name : String
  period : Period
  target : Int
  progress : Jmap
  path : String
  previousProgress : Jmap
deriving DecidableEq, Repr

/-- `TimeTarget` (src/src/target.ts:224-280). -/
structure TimeTarget where
  id : Nat
  name : String
  period : Period
  target : Int
  progress : Jmap
  path : String
  multiplier : Int
deriving DecidableEq, Repr

/-- `WordCountTarget.getProgress` (src/src/target.ts:152-160): copy
`progress`, then subtract `previousProgress[key]` for every key of
`progress` that is also a key of `previousProgress`. -/
def WordCountTarget.getProgress (t : WordCountTarget) : Jmap :=
  t.progress.map (fun kv =>
    if (mapLookup t.previousProgress kv.1).isSome then
      (kv.1, kv.2 - (mapLookup t.previousProgress kv.1).getD 0)
    else kv)

/-- `Target.getTotalProgress` (src/src/target.ts:78-85) on a wordCount
target: sum of the displayed progress values. -/
def WordCountTarget.getTotalProgress (t : WordCountTarget) : Int :=
  jmapSum t.getProgress

/-- `WordCountTarget.updateProgress` (src/src/target.ts:210-221). `count`
is the externally measured `getWordCount(...)` result for the file. -/
def WordCountTarget.updateProgress (t : WordCountTarget) (doc : String) (count : Int) :
    WordCountTarget :=
  if isTrackingPath t.path doc then
    { t with
      previousProgress :=
        if mapLookup t.progress doc = Option.some (-1) then
          mapSet t.previousProgress doc count
        else t.previousProgress,
      progress := mapSet t.progress doc count }
  else t

/-- `WordCountTarget.fileModify` (src/src/target.ts:162-164). -/
def WordCountTarget.fileModify (t : WordCountTarget) (doc : String) (count : Int) :
    WordCountTarget :=
  t.updateProgress doc count

/-- `WordCountTarget.fileCreate` (src/src/target.ts:166-168). -/
def WordCountTarget.fileCreate (t : WordCountTarget) (doc : String) (count : Int) :
    WordCountTarget :=
  t.updateProgress doc count

/-- `WordCountTarget.fileDelete` (src/src/target.ts:170-173). -/
def WordCountTarget.fileDelete (t : WordCountTarget) (doc : String) : WordCountTarget :=
  { t with progress := mapDel t.progress doc,
           previousProgress := mapDel t.previousProgress doc }

/-- `WordCountTarget.fileRename` (src/src/target.ts:175-187). `count` is
the `getWordCount` fallback measured on the renamed file. -/
def WordCountTarget.fileRename (t : WordCountTarget) (oldPath newPath : String)
    (count : Int) : WordCountTarget :=
  let t1 :=
    if isTrackingPath t.path newPath then
      { t with
        progress := mapSet t.progress newPath (jsOr (mapLookup t.progress oldPath) count),
        previousProgress :=
          mapSet t.previousProgress newPath (jsOr (mapLookup t.previousProgress oldPath) 0) }
    else t
  { t1 with progress := mapDel t1.progress oldPath,
            previousProgress := mapDel t1.previousProgress oldPath }

/-- `WordCountTarget.fileOpen` (src/src/target.ts:189-193). -/
def WordCountTarget.fileOpen (t : WordCountTarget) (doc : String) (count : Int) :
    WordCountTarget :=
  if mapLookup t.progress doc = Option.some (-1) then t.updateProgress doc count else t

/-- `WordCountTarget.getNextTarget` (src/src/target.ts:138-150): fresh id,
same configuration, `progress` copied and `previousProgress` set to that
same copy. `fid` stands for the `generateID()` result. -/
def WordCountTarget.getNextTarget (t : WordCountTarget) (fid : Nat) : WordCountTarget :=
  { id := fid, name := t.name, period := t.period, target := t.target,
    progress := t.progress, path := t.path, previousProgress := t.progress }

/-- `TimeTarget.getTotalProgress`: the base `getProgress` is the identity,
so the total is the sum of the raw accumulators. -/
def TimeTarget.getTotalProgress (t : TimeTarget) : Int :=
  jmapSum t.progress

/-- Base `Target.fileCreate` (src/src/target.ts:86-90), as inherited by
`TimeTarget`. -/
def TimeTarget.fileCreate (t : TimeTarget) (doc : String) : TimeTarget :=
  if isTrackingPath t.path doc then { t with progress := mapSet t.progress doc 0 } else t

/-- Base `Target.fileDelete` (src/src/target.ts:91-93). -/
def TimeTarget.fileDelete (t : TimeTarget) (doc : String) : TimeTarget :=
  { t with progress := mapDel t.progress doc }

/-- Base `Target.fileRename` (src/src/target.ts:94-99). -/
def TimeTarget.fileRename (t : TimeTarget) (oldPath newPath : String) : TimeTarget :=
  let t1 :=
    if isTrackingPath t.path newPath then
      { t with progress := mapSet t.progress newPath (jsOr (mapLookup t.progress oldPath) 0) }
    else t
  { t1 with progress := mapDel t1.progress oldPath }

/-- `TargetManager.getElapsedTimeOnActiveFile` (unnamed/part_000:259-267):
`min(maxIdleTime, Date.now() - activeFileTimestamp)` guarded by the JS
truthiness of both `activeFile` and `activeFileTimestamp`. -/
def getElapsedTimeOnActiveFile (activeFile : Option String)
    (activeFileTimestamp maxIdleTime now : Int) : Int :=
  if activeFile.isSome ∧ activeFileTimestamp ≠ 0 then
    min maxIdleTime (now - activeFileTimestamp)
  else 0

/-- `TimeTarget.fileModify` (src/src/target.ts:258-264); `elapsed` is the
`getElapsedTimeOnActiveFile()` result supplied by the manager. -/
def TimeTarget.fileModify (t : TimeTarget) (doc : String) (elapsed : Int) : TimeTarget :=
  if isTrackingPath t.path doc then
    { t with progress := mapSet t.progress doc (jsOr (mapLookup t.progress doc) 0 + elapsed) }
  else t

/-- `TimeTarget.getNextTarget` (src/src/target.ts:242-256): fresh id,
same name/period/target/path, progress copied then every accumulator set
to 0. The constructor call passes no multiplier argument, so the
successor receives the constructor's default `multiplier = 1000`
(src/src/target.ts:236), not the original's. -/
def TimeTarget.getNextTarget (t : TimeTarget) (fid : Nat) : TimeTarget :=
  { id := fid, name := t.name, period := t.period, target := t.target,
    progress := t.progress.map (fun kv => (kv.1, 0)), path := t.path,
    multiplier := 1000 }

/-- Sum type over the two concrete target classes. -/
inductive Target where
  | wc (t : WordCountTarget)
  | tm (t : TimeTarget)
deriving DecidableEq, Repr

def Target.id : Target → Nat
  | Target.wc t => t.id
  | Target.tm t => t.id

def Target.period : Target → Period
  | Target.wc t => t.period
  | Target.tm t => t.period

def Target.tkind : Target → TKind
  | Target.wc _ => TKind.wordCount
  | Target.tm _ => TKind.time

/-- The `target` (goal) field of either kind. -/
def Target.targetVal : Target → Int
  | Target.wc t => t.target
  | Target.tm t => t.target

def Target.getTotalProgress : Target → Int
  | Target.wc t => t.getTotalProgress
  | Target.tm t => t.getTotalProgress

/-- Virtual dispatch of `getNextTarget`; `fid` is the `generateID()` result. -/
def Target.getNextTarget : Target → Nat → Target
  | Target.wc t, fid => Target.wc (t.getNextTarget fid)
  | Target.tm t, fid => Target.tm (t.getNextTarget fid)

/-- `settings.progressHistory`, flattened: the nested
`progressHistory[period][dateString][kind] = {target, progress}` objects
become one map keyed by the (period, day index, kind) triple. The nesting
carries no extra observable state because `archiveTarget` always creates
the inner objects together with the leaf entry. -/
abbrev History := List ((Period × Int × TKind) × (Int × Int))

/-- Day index of an instant (hours since epoch): models
`setHours(0,0,0,0)` followed by `toISOString().split("T")[0]`. -/
def dateKeyOf (t : Int) : Int := t.fdiv 24

/-- `getDay()` of an instant, as an abstract weekday index. -/
def weekdayOf (t : Int) : Int := (t.fdiv 24).emod 7

/-- `TargetManager` state together with the settings fields the embedded
operations read and write (unnamed/part_000, unnamed/part_004 second
revision). `nextId` is the fresh-id counter modelling `generateID`. -/
structure MgrState where
  targets : List Target
  nextId : Nat
  history : History
  weeklyResetDay : Int
  dailyResetHour : Int
  lastReset : Int
deriving DecidableEq, Repr

/-- `TargetManager.archiveTarget` (unnamed/part_000:79-104): skip `none`
targets, skip zero total progress, otherwise ensure the bucket exists and
additively accumulate the goal and the total progress. -/
def archiveTarget (h : History) (t : Target) (date : Int) : History :=
  if t.period = Period.none then h
  else if t.getTotalProgress = 0 then h
  else
    let key := (t.period, dateKeyOf date, t.tkind)
    let old := (mapLookup h key).getD (0, 0)
    mapSet h key (old.1 + t.targetVal, old.2 + t.getTotalProgress)

/-- Whether `resetTargets` considers a target due at a weekday
(unnamed/part_000:156-160). -/
def dueTarget (weekday weeklyResetDay : Int) (t : Target) : Bool :=
  t.period = Period.daily || (t.period = Period.weekly && weekday = weeklyResetDay)

/-- The JS index loop of `TargetManager.deleteTarget`
(unnamed/part_000:168-174): `for (let i ...) if (id match) splice(i, 1)`,
index semantics preserved (after a removal the loop still advances,
skipping the element that slid into the removed slot). The loop runs
while `i < length` with `i` increasing and the length never growing, so
`l.length` iterations always suffice; `fuel` carries that bound so the
recursion is structural. -/
def deleteGo (fuel : Nat) (l : List Target) (tid : Nat) (i : Nat) : List Target :=
  match fuel with
  | 0 => l
  | fuel + 1 =>
    if h : i < l.length then
      if (l.get ⟨i, h⟩).id = tid then deleteGo fuel (l.eraseIdx i) tid (i + 1)
      else deleteGo fuel l tid (i + 1)
    else l

/-- `TargetManager.deleteTarget` (unnamed/part_000:168-174). -/
def deleteTarget (l : List Target) (tid : Nat) : List Target :=
  deleteGo l.length l tid 0

/-- The body of `TargetManager.resetTargets` (unnamed/part_000:153-166):
iterate the targets array by index; for every due target replace it in
place by its successor, run `deleteTarget` on the expiring id, and archive
the expiring target. The array iterator semantics (`entries()` reads the
current array each step) are preserved; as with `deleteGo`, `fuel` is the
iteration bound `targets.length`, making the recursion structural. -/
def resetGo (fuel : Nat) (date weekday : Int) (i : Nat) (st : MgrState) : MgrState :=
  match fuel with
  | 0 => st
  | fuel + 1 =>
    if h : i < st.targets.length then
      if dueTarget weekday st.weeklyResetDay (st.targets.get ⟨i, h⟩) then
        resetGo fuel date weekday (i + 1)
          { st with
            targets := deleteTarget
              (st.targets.set i ((st.targets.get ⟨i, h⟩).getNextTarget st.nextId))
              (st.targets.get ⟨i, h⟩).id,
            nextId := st.nextId + 1,
            history := archiveTarget st.history (st.targets.get ⟨i, h⟩) date }
      else resetGo fuel date weekday (i + 1) st
    else st

/-- `TargetManager.resetTargets` (unnamed/part_000:153-166). -/
def resetTargets (st : MgrState) (date : Int) : MgrState :=
  resetGo st.targets.length date (weekdayOf date) 0 st

/-- `ScheduleManager.getNextResetDate` (unnamed/part_004:96-103): today's
`dailyResetHour`, rolled forward one day if not strictly after `startFrom`. -/
def getNextResetDate (dailyResetHour startFrom : Int) : Int :=
  let nextReset := 24 * startFrom.fdiv 24 + dailyResetHour
  if nextReset ≤ startFrom then nextReset + 24 else nextReset

/-- `ScheduleManager.checkMissedResets` (unnamed/part_004:69-78, the
revision consistent with unnamed/part_000): one conditional catch-up pass
invoked with the persisted `lastReset`, then `lastReset` is set to the
most recent elapsed reset instant. -/
def checkMissedResets (st : MgrState) (now : Int) : MgrState :=
  let lastReset := st.lastReset
  let prevReset := getNextResetDate st.dailyResetHour now - 24
  let st1 := if lastReset < prevReset then resetTargets st lastReset else st
  { st1 with lastReset := prevReset }

/-- Modelled from the spec: the catch-up policy as the spec states it —
"performs the catch-up reset+archive pass for the most recent missed
boundary only", i.e. the single pass is invoked with the most recent
elapsed reset instant rather than with the stored `lastReset`. Used only
to compare the code against the spec's words. -/
def checkMissedResetsMostRecent (st : MgrState) (now : Int) : MgrState :=
  let prevReset := getNextResetDate st.dailyResetHour now - 24
  let st1 := if st.lastReset < prevReset then resetTargets st prevReset else st
  { st1 with lastReset := prevReset }

/-- One output record of `getYearProgress`. -/
structure YPEntry where
  day : Int
  target : Int
  progress : Int
deriving DecidableEq, Repr

/-- The loop of `TargetManager.getYearProgress` (unnamed/part_000:209-257),
walking day indices from `currDay` down to `endDay`. The explicit-entry
branch records the entry and remembers it as `prevWeekResult`; for weekly
queries a missing day is filled from `prevWeekResult` when present, else
zero; after each decrement `prevWeekResult` is cleared when
`currDate - prevWeekResult.date` is at least 7 days. Output is
newest-first, as pushed by the source. -/
def gypGo (h : History) (period : Period) (kind : TKind) (endDay : Int)
    (fuel : Nat) (currDay : Int) (prev : Option YPEntry) : List YPEntry :=
  match fuel with
  | 0 => []
  | fuel + 1 =>
    if endDay ≤ currDay then
      let step : YPEntry × Option YPEntry :=
        match mapLookup h (period, currDay, kind) with
        | Option.some tp => (⟨currDay, tp.1, tp.2⟩, Option.some ⟨currDay, tp.1, tp.2⟩)
        | Option.none =>
          match period, prev with
          | Period.weekly, Option.some p => (⟨currDay, p.target, p.progress⟩, Option.some p)
          | _, _ => (⟨currDay, 0, 0⟩, prev)
      let nextDay := currDay - 1
      let prev2 :=
        match step.2 with
        | Option.some p => if 7 ≤ nextDay - p.day then Option.none else Option.some p
        | Option.none => Option.none
      step.1 :: gypGo h period kind endDay fuel nextDay prev2
    else []

/-- `TargetManager.getYearProgress` (unnamed/part_000:209-257), with the
calendar year abstracted to the inclusive day-index range
`[startDay, endDay]`: the source walks Dec 31 down to Jan 1 and reverses
the result into chronological order. The loop decrements `currDay` once
per iteration and stops below `startDay`, so its iteration count is
exactly `(endDay + 1 - startDay).toNat`, supplied as structural fuel. -/
def getYearProgress (h : History) (period : Period) (kind : TKind)
    (startDay endDay : Int) : List YPEntry :=
  (gypGo h period kind startDay (endDay + 1 - startDay).toNat endDay Option.none).reverse

/-- The summand view of the displayed progress: each key of `progress`
contributes its value minus the `previousProgress` entry when that key is
present there (absent keys contribute their value unchanged, via
`Option.getD 0`). -/
def displayedSum (p prev : Jmap) : Int :=
  (p.map (fun kv => kv.2 - (mapLookup prev kv.1).getD 0)).sum

/-- One ContentSource event dispatched to a `TimeTarget`. The `modify`
event carries the `TargetManager` focus state and clock reading from which
`getElapsedTimeOnActiveFile` computes the elapsed delta; `nextPeriod` is
the reset replacing the target by `getNextTarget fid`. -/
inductive TimeEvent where
  | create (doc : String)
  | delete (doc : String)
  | rename (oldPath newPath : String)
  | modify (doc : String) (activeFile : Option String) (ts maxIdle now : Int)
  | nextPeriod (fid : Nat)
deriving Repr

def TimeTarget.applyEvent (t : TimeTarget) : TimeEvent → TimeTarget
  | TimeEvent.create doc => t.fileCreate doc
  | TimeEvent.delete doc => t.fileDelete doc
  | TimeEvent.rename oldPath newPath => t.fileRename oldPath newPath
  | TimeEvent.modify doc af ts maxIdle now =>
    t.fileModify doc (getElapsedTimeOnActiveFile af ts maxIdle now)
  | TimeEvent.nextPeriod fid => t.getNextTarget fid

def TimeTarget.applyEvents (t : TimeTarget) (evs : List TimeEvent) : TimeTarget :=
  evs.foldl TimeTarget.applyEvent t

/-- The clock discipline the manager guarantees for a `modify` accrual:
a non-negative idle cap and a clock that never reads earlier than the
stored focus timestamp. -/
def timeEventOk : TimeEvent → Prop
  | TimeEvent.modify _ _ ts maxIdle now => 0 ≤ maxIdle ∧ ts ≤ now
  | _ => True

instance (e : TimeEvent) : Decidable (timeEventOk e) :=
  match e with
  | TimeEvent.create _ => inferInstanceAs (Decidable True)
  | TimeEvent.delete _ => inferInstanceAs (Decidable True)
  | TimeEvent.rename _ _ => inferInstanceAs (Decidable True)
  | TimeEvent.modify _ _ ts maxIdle now => inferInstanceAs (Decidable (0 ≤ maxIdle ∧ ts ≤ now))
  | TimeEvent.nextPeriod _ => inferInstanceAs (Decidable True)

/-- Every accumulator of the map is non-negative. -/
def nonnegVals (m : Jmap) : Prop := ∀ kv ∈ m, 0 ≤ kv.2

instance (m : Jmap) : Decidable (nonnegVals m) :=
  inferInstanceAs (Decidable (∀ kv ∈ m, 0 ≤ kv.2))

/-- One ContentSource event dispatched to a `WordCountTarget`; the `Int`
argument is the externally measured word count consumed by the handler. -/
inductive WCEvent where
  | create (doc : String) (count : Int)
  | modify (doc : String) (count : Int)
  | openFile (doc : String) (count : Int)
  | rename (oldPath newPath : String) (count : Int)
  | delete (doc : String)
  | update (doc : String) (count : Int)
deriving Repr

def WordCountTarget.applyEvent (t : WordCountTarget) : WCEvent → WordCountTarget
  | WCEvent.create doc count => t.fileCreate doc count
  | WCEvent.modify doc count => t.fileModify doc count
  | WCEvent.openFile doc count => t.fileOpen doc count
  | WCEvent.rename oldPath newPath count => t.fileRename oldPath newPath count
  | WCEvent.delete doc => t.fileDelete doc
  | WCEvent.update doc count => t.updateProgress doc count

def WordCountTarget.applyEvents (t : WordCountTarget) (evs : List WCEvent) :
    WordCountTarget :=
  evs.foldl WordCountTarget.applyEvent t

/-- Every key of both progress maps of a wordCount target is a tracked
path. -/
def trackedKeysWC (t : WordCountTarget) : Prop :=
  (∀ kv ∈ t.progress, isTrackingPath t.path kv.1 = true) ∧
  (∀ kv ∈ t.previousProgress, isTrackingPath t.path kv.1 = true)

/-- Every key of the progress map of a time target is a tracked path. -/
def trackedKeysTime (t : TimeTarget) : Prop :=
  ∀ kv ∈ t.progress, isTrackingPath t.path kv.1 = true

instance (t : WordCountTarget) : Decidable (trackedKeysWC t) :=
  inferInstanceAs (Decidable ((∀ kv ∈ t.progress, isTrackingPath t.path kv.1 = true) ∧
    (∀ kv ∈ t.previousProgress, isTrackingPath t.path kv.1 = true)))

instance (t : TimeTarget) : Decidable (trackedKeysTime t) :=
  inferInstanceAs (Decidable (∀ kv ∈ t.progress, isTrackingPath t.path kv.1 = true))

/-- Well-formedness of the manager's id state: live targets carry pairwise
distinct ids, all below the fresh-id counter (the spec's `generateID`
contract: ids are unique and freshly generated). -/
def MgrInv (st : MgrState) : Prop :=
  (st.targets.map Target.id).Nodup ∧ ∀ t ∈ st.targets, t.id < st.nextId

instance (st : MgrState) : Decidable (MgrInv st) :=
  inferInstanceAs (Decidable ((st.targets.map Target.id).Nodup ∧
    ∀ t ∈ st.targets, t.id < st.nextId))

/-- Sample wordCount target used by concrete witnesses. -/
def sampleWC : WordCountTarget :=
  { id := 0, name := "novel", period := Period.daily, target := 1000,
    progress := [("a.md", 7), ("b.md", 2)], path := "",
    previousProgress := [("a.md", 3), ("c.md", 4)] }

/-- Fresh wordCount target with no measured documents. -/
def emptyWC : WordCountTarget :=
  { id := 0, name := "novel", period := Period.daily, target := 1000,
    progress := [], path := "", previousProgress := [] }

/-- Sample time target used by concrete witnesses. -/
def sampleTime : TimeTarget :=
  { id := 3, name := "focus", period := Period.daily, target := 3600000,
    progress := [("a.md", 250)], path := "", multiplier := 1000 }

/-- Time target with the UI's Minutes unit scaling (multiplier 60000),
used to exhibit the successor's multiplier reset. -/
def minutesTime : TimeTarget :=
  { id := 4, name := "minutes", period := Period.daily, target := 60,
    progress := [("a.md", 250)], path := "", multiplier := 60000 }

/-- WordCount target whose only tracked document has accumulated value 0,
used for the rename carry-over counterexample. -/
def zeroWC : WordCountTarget :=
  { id := 0, name := "novel", period := Period.daily, target := 10,
    progress := [("a.md", 0)], path := "", previousProgress := [("a.md", 0)] }

/-- Daily wordCount target with 5 words of displayed progress. -/
def staleWC : WordCountTarget :=
  { id := 1, name := "novel", period := Period.daily, target := 100,
    progress := [("a.md", 5)], path := "", previousProgress := [] }

/-- Manager state holding `staleWC`, whose persisted `lastReset` is five
reset boundaries old (`lastReset` = hour 0, clock now = hour 125, reset
hour 0). -/
def staleMgr : MgrState :=
  { targets := [Target.wc staleWC], nextId := 10, history := [],
    weeklyResetDay := 0, dailyResetHour := 0, lastReset := 0 }

/-- History holding a single weekly wordCount entry at day 10 with goal
sum 3 and progress sum 5, used against `getYearProgress`. -/
def weeklyHist : History := [((Period.weekly, 10, TKind.wordCount), (3, 5))]

/-- WordCount target holding the `-1` unmeasured sentinel for `a.md`, as
`setupProgress` leaves existing-but-unopened files. -/
def sentinelWC : WordCountTarget :=
  { id := 0, name := "novel", period := Period.daily, target := 1000,
    progress := [("a.md", -1)], path := "", previousProgress := [("a.md", -1)] }

/-- Target with `period = none`, which reset and archival must skip. -/
def noneWC : WordCountTarget :=
  { id := 2, name := "oneOff", period := Period.none, target := 100,
    progress := [("a.md", 5)], path := "", previousProgress := [] }

/-- Manager state holding one due daily target whose total progress is 0,
next to a non-empty history store. -/
def zeroMgr : MgrState :=
  { targets := [Target.wc zeroWC], nextId := 10,
    history := [((Period.daily, 3, TKind.wordCount), (100, 7))],
    weeklyResetDay := 0, dailyResetHour := 0, lastReset := 0 }

theorem mapLookup_set_self {α β : Type} [DecidableEq α] (m : List (α × β)) (k : α) (v : β) :
    mapLookup (mapSet m k v) k = Option.some v := by
  induction m with
  | nil => simp [mapSet, mapLookup]
  | cons kv rest ih =>
    obtain ⟨k0, w⟩ := kv
    by_cases h : k0 = k
    · simp [mapSet, h, mapLookup]
    · simp [mapSet, h, mapLookup, ih]

theorem mapLookup_set_ne {α β : Type} [DecidableEq α] (m : List (α × β)) (k k' : α) (v : β)
    (h : k' ≠ k) : mapLookup (mapSet m k v) k' = mapLookup m k' := by
  induction m with
  | nil => simp [mapSet, mapLookup, Ne.symm h]
  | cons kv rest ih =>
    obtain ⟨k0, w⟩ := kv
    by_cases h0 : k0 = k
    · subst h0
      simp [mapSet, mapLookup, Ne.symm h]
    · simp [mapSet, h0, mapLookup, ih]

theorem mapLookup_del_self {α β : Type} [DecidableEq α] (m : List (α × β)) (k : α) :
    mapLookup (mapDel m k) k = Option.none := by
  induction m with
  | nil => simp [mapDel, mapLookup]
  | cons kv rest ih =>
    obtain ⟨k0, w⟩ := kv
    by_cases h : k0 = k
    · simpa [mapDel, h, mapLookup] using ih
    · simpa [mapDel, h, mapLookup] using ih

theorem mapLookup_del_ne {α β : Type} [DecidableEq α] (m : List (α × β)) (k k' : α)
    (h : k' ≠ k) : mapLookup (mapDel m k) k' = mapLookup m k' := by
  induction m with
  | nil => simp [mapDel, mapLookup]
  | cons kv rest ih =>
    obtain ⟨k0, w⟩ := kv
    by_cases h0 : k0 = k
    · subst h0
      simpa [mapDel, mapLookup, Ne.symm h] using ih
    · by_cases h1 : k0 = k'
      · subst h1
        simp [mapDel, mapLookup, h0]
      · simpa [mapDel, h0, mapLookup, h1] using ih

theorem mem_of_mem_mapSet {α β : Type} [DecidableEq α] {m : List (α × β)} {k : α} {v : β}
    {kv : α × β} (h : kv ∈ mapSet m k v) : kv ∈ m ∨ kv = (k, v) := by
  induction m with
  | nil => simpa [mapSet] using h
  | cons kv0 rest ih =>
    obtain ⟨k0, w⟩ := kv0
    by_cases h0 : k0 = k
    · simp [mapSet, h0] at h
      rcases h with h | h
      · right
        simp [h]
      · left
        simp [h]
    · simp [mapSet, h0] at h
      rcases h with h | h
      · left
        simp [h]
      · rcases ih h with h1 | h1
        · left
          simp [h1]
        · right
          exact h1

theorem mem_of_mem_mapDel {α β : Type} [DecidableEq α] {m : List (α × β)} {k : α}
    {kv : α × β} (h : kv ∈ mapDel m k) : kv ∈ m :=
  List.mem_of_mem_filter h

theorem fst_ne_of_mem_mapDel {α β : Type} [DecidableEq α] {m : List (α × β)} {k : α}
    {kv : α × β} (h : kv ∈ mapDel m k) : kv.1 ≠ k := by
  have := List.of_mem_filter h
  simpa using this

theorem mapLookup_eq_none_iff {α β : Type} [DecidableEq α] (m : List (α × β)) (k : α) :
    mapLookup m k = Option.none ↔ ∀ kv ∈ m, kv.1 ≠ k := by
  induction m with
  | nil => simp [mapLookup]
  | cons kv0 rest ih =>
    obtain ⟨k0, w⟩ := kv0
    by_cases h : k0 = k
    · simp [mapLookup, h]
    · simp [mapLookup, h, ih]

theorem mapSet_of_lookup_none {α β : Type} [DecidableEq α] {m : List (α × β)} {k : α}
    (v : β) (h : mapLookup m k = Option.none) : mapSet m k v = m ++ [(k, v)] := by
  induction m with
  | nil => simp [mapSet]
  | cons kv0 rest ih =>
    obtain ⟨k0, w⟩ := kv0
    rw [mapLookup] at h
    by_cases h0 : k0 = k
    · simp [h0] at h
    · simp [h0] at h
      simp [mapSet, h0, ih h]

theorem mapDel_of_lookup_none {α β : Type} [DecidableEq α] {m : List (α × β)} {k : α}
    (h : mapLookup m k = Option.none) : mapDel m k = m := by
  rw [mapLookup_eq_none_iff] at h
  exact List.filter_eq_self.mpr (fun kv hkv => by simpa using h kv hkv)

theorem mapLookup_of_mem_nodup {α β : Type} [DecidableEq α] {m : List (α × β)} {k : α}
    {v : β} (hnd : (m.map Prod.fst).Nodup) (h : (k, v) ∈ m) :
    mapLookup m k = Option.some v := by
  induction m with
  | nil => simp at h
  | cons kv0 rest ih =>
    obtain ⟨k0, w⟩ := kv0
    rw [List.map_cons, List.nodup_cons] at hnd
    rcases List.mem_cons.mp h with h | h
    · rw [Prod.ext_iff] at h
      obtain ⟨h1, h2⟩ := h
      subst h1
      subst h2
      simp [mapLookup]
    · have hk : ¬k0 = k := by
        intro hk
        subst hk
        exact hnd.1 (List.mem_map.mpr ⟨(k0, v), h, rfl⟩)
      rw [mapLookup]
      simp only [hk, if_false]
      exact ih hnd.2 h

theorem jsOr_zero (o : Option Int) : jsOr o 0 = o.getD 0 := by
  cases o with
  | none => rfl
  | some v =>
    by_cases h : v = 0
    · simp [jsOr, h]
    · simp [jsOr, h]

theorem jsOr_some_of_ne {v : Int} (d : Int) (h : v ≠ 0) : jsOr (Option.some v) d = v := by
  simp [jsOr, h]

theorem mapLookup_map_sub (prev : Jmap) (p : Jmap) (doc : String) :
    mapLookup (p.map (fun kv => (kv.1, kv.2 - (mapLookup prev kv.1).getD 0))) doc
    = (mapLookup p doc).map (fun v => v - (mapLookup prev doc).getD 0) := by
  induction p with
  | nil => simp [mapLookup]
  | cons kv rest ih =>
    obtain ⟨k0, w⟩ := kv
    by_cases h0 : k0 = doc
    · subst h0
      simp [mapLookup]
    · simpa [mapLookup, h0] using ih

theorem mapLookup_map_disp (prev : Jmap) (p : Jmap) (doc : String) :
    mapLookup (p.map (fun kv =>
      if (mapLookup prev kv.1).isSome then
        (kv.1, kv.2 - (mapLookup prev kv.1).getD 0)
      else kv)) doc
    = (mapLookup p doc).map (fun v =>
        if (mapLookup prev doc).isSome then v - (mapLookup prev doc).getD 0 else v) := by
  have hfun : ∀ kv ∈ p,
      (if (mapLookup prev kv.1).isSome then
        (kv.1, kv.2 - (mapLookup prev kv.1).getD 0)
      else kv) = (kv.1, kv.2 - (mapLookup prev kv.1).getD 0) := by
    intro kv _
    by_cases hs : (mapLookup prev kv.1).isSome
    · rw [if_pos hs]
    · rw [if_neg hs]
      rw [Option.not_isSome_iff_eq_none] at hs
      rw [hs]
      simp
  rw [List.map_congr_left hfun, mapLookup_map_sub]
  rcases ho : mapLookup prev doc with _ | pv
  · simp [ho]
  · simp [ho]

theorem getProgress_lookup (t : WordCountTarget) (doc : String) :
    mapLookup t.getProgress doc
    = (mapLookup t.progress doc).map (fun v =>
        if (mapLookup t.previousProgress doc).isSome then
          v - (mapLookup t.previousProgress doc).getD 0
        else v) :=
  mapLookup_map_disp t.previousProgress t.progress doc

theorem getTotalProgress_eq_displayedSum (t : WordCountTarget) :
    t.getTotalProgress = displayedSum t.progress t.previousProgress := by
  unfold WordCountTarget.getTotalProgress jmapSum WordCountTarget.getProgress displayedSum
  rw [List.map_map]
  congr 1
  apply List.map_congr_left
  intro kv _
  by_cases hs : (mapLookup t.previousProgress kv.1).isSome
  · simp [hs]
  · rw [Option.not_isSome_iff_eq_none] at hs
    simp [hs]

/-- Claim C1: on a wordCount target, the displayed progress map returned
by `getProgress` has value `progress[doc] - previousProgress[doc]` at
every key `doc` of `progress` that is also a key of `previousProgress`,
value `progress[doc]` at the keys of `progress` absent from
`previousProgress`, and no value at keys absent from `progress` (so keys
only in `previousProgress` contribute nothing); `getTotalProgress` is the
sum of these displayed values over the entries of `progress`. -/
theorem wordCount_displayed_progress_spec (t : WordCountTarget) :
    (∀ doc v pv, mapLookup t.progress doc = Option.some v →
      mapLookup t.previousProgress doc = Option.some pv →
      mapLookup t.getProgress doc = Option.some (v - pv)) ∧
    (∀ doc v, mapLookup t.progress doc = Option.some v →
      mapLookup t.previousProgress doc = Option.none →
      mapLookup t.getProgress doc = Option.some v) ∧
    (∀ doc, mapLookup t.progress doc = Option.none →
      mapLookup t.getProgress doc = Option.none) ∧
    t.getTotalProgress = displayedSum t.progress t.previousProgress := by
  refine ⟨?_, ?_, ?_, getTotalProgress_eq_displayedSum t⟩
  · intro doc v pv hv hpv
    rw [getProgress_lookup, hv]
    simp [hpv]
  · intro doc v hv hpv
    rw [getProgress_lookup, hv]
    simp [hpv]
  · intro doc hv
    rw [getProgress_lookup, hv]
    rfl

/-- Witness for C1 on `sampleWC`: key in both maps shows the delta, key
only in `progress` shows the raw value, key only in `previousProgress` is
absent from the displayed map, and the total matches the displayed sum. -/
theorem wordCount_displayed_progress_spec_witness :
    mapLookup sampleWC.getProgress "a.md" = Option.some 4 ∧
    mapLookup sampleWC.getProgress "b.md" = Option.some 2 ∧
    mapLookup sampleWC.getProgress "c.md" = Option.none ∧
    sampleWC.getTotalProgress = displayedSum sampleWC.progress sampleWC.previousProgress :=
  ⟨(wordCount_displayed_progress_spec sampleWC).1 "a.md" 7 3 (by decide) (by decide),
   (wordCount_displayed_progress_spec sampleWC).2.1 "b.md" 2 (by decide) (by decide),
   (wordCount_displayed_progress_spec sampleWC).2.2.1 "c.md" (by decide),
   (wordCount_displayed_progress_spec sampleWC).2.2.2⟩

/-- Claim C2 counterexample: `fileCreate` measuring 50 words on a document
with no prior `progress` entry (a freshly created file) does not install a
`previousProgress` baseline, and the displayed progress is 50, not 0 —
the source only snapshots the baseline when `progress[doc] === -1`, and a
missing property is `undefined`, not `-1`. -/
theorem fileCreate_baseline_counterexample :
    mapLookup (emptyWC.fileCreate "a.md" 50).previousProgress "a.md" = Option.none ∧
    mapLookup (emptyWC.fileCreate "a.md" 50).progress "a.md" = Option.some 50 ∧
    mapLookup (emptyWC.fileCreate "a.md" 50).getProgress "a.md" = Option.some 50 := by
  decide

/-- Claim C2 (amended): `updateProgress` on a tracked document always
sets `progress[doc] = n`; it installs `previousProgress[doc] = n` (making
the displayed delta 0) exactly when `progress[doc]` currently holds the
`-1` unmeasured sentinel left by `setupProgress`, and leaves
`previousProgress` untouched otherwise — in particular a document-created
event on a fresh document (no `progress` entry at all) gets no baseline
and displays its full measured count. -/
theorem updateProgress_sentinel_baseline (t : WordCountTarget) (doc : String) (n : Int)
    (htrack : isTrackingPath t.path doc = true) :
    mapLookup (t.updateProgress doc n).progress doc = Option.some n ∧
    (mapLookup t.progress doc = Option.some (-1) →
      mapLookup (t.updateProgress doc n).previousProgress doc = Option.some n ∧
      mapLookup (t.updateProgress doc n).getProgress doc = Option.some 0) ∧
    (mapLookup t.progress doc ≠ Option.some (-1) →
      (t.updateProgress doc n).previousProgress = t.previousProgress) := by
  unfold WordCountTarget.updateProgress
  rw [if_pos htrack]
  refine ⟨by simp [mapLookup_set_self], ?_, ?_⟩
  · intro hsent
    rw [if_pos hsent]
    refine ⟨by simp [mapLookup_set_self], ?_⟩
    rw [getProgress_lookup]
    simp [mapLookup_set_self]
  · intro hsent
    rw [if_neg hsent]

/-- Witness for C2 (amended) at `sentinelWC` (sentinel present: baseline
installed, displayed delta 0) and at `sampleWC` (no sentinel:
`previousProgress` untouched). -/
theorem updateProgress_sentinel_baseline_witness :
    mapLookup (sentinelWC.updateProgress "a.md" 50).progress "a.md" = Option.some 50 ∧
    mapLookup (sentinelWC.updateProgress "a.md" 50).previousProgress "a.md"
      = Option.some 50 ∧
    mapLookup (sentinelWC.updateProgress "a.md" 50).getProgress "a.md" = Option.some 0 ∧
    (sampleWC.updateProgress "a.md" 9).previousProgress = sampleWC.previousProgress :=
  ⟨(updateProgress_sentinel_baseline sentinelWC "a.md" 50 (by decide)).1,
   ((updateProgress_sentinel_baseline sentinelWC "a.md" 50 (by decide)).2.1 (by decide)).1,
   ((updateProgress_sentinel_baseline sentinelWC "a.md" 50 (by decide)).2.1 (by decide)).2,
   (updateProgress_sentinel_baseline sampleWC "a.md" 9 (by decide)).2.2 (by decide)⟩

theorem mapLookup_map_zero (p : Jmap) (doc : String) :
    mapLookup (p.map (fun kv => (kv.1, (0 : Int)))) doc
    = (mapLookup p doc).map (fun _ => 0) := by
  induction p with
  | nil => simp [mapLookup]
  | cons kv rest ih =>
    obtain ⟨k0, w⟩ := kv
    by_cases h0 : k0 = doc
    · subst h0
      simp [mapLookup]
    · simpa [mapLookup, h0] using ih

theorem nextTarget_total_zero_wc (t : WordCountTarget) (fid : Nat)
    (hnd : (t.progress.map Prod.fst).Nodup) :
    (t.getNextTarget fid).getTotalProgress = 0 := by
  unfold WordCountTarget.getTotalProgress jmapSum WordCountTarget.getProgress
    WordCountTarget.getNextTarget
  rw [List.map_map]
  apply List.sum_eq_zero
  intro x hx
  rw [List.mem_map] at hx
  obtain ⟨kv, hkv, rfl⟩ := hx
  obtain ⟨k, v⟩ := kv
  have hl : mapLookup t.progress k = Option.some v := mapLookup_of_mem_nodup hnd hkv
  simp [hl]

theorem nextTarget_total_zero_time (t : TimeTarget) (fid : Nat) :
    (t.getNextTarget fid).getTotalProgress = 0 := by
  unfold TimeTarget.getTotalProgress jmapSum TimeTarget.getNextTarget
  rw [List.map_map]
  apply List.sum_eq_zero
  intro x hx
  rw [List.mem_map] at hx
  obtain ⟨kv, hkv, rfl⟩ := hx
  rfl

/-- Claim C3 counterexample: a time target configured with the Minutes
unit scaling (multiplier 60000) gets a successor whose multiplier is the
constructor default 1000 — the source's `getNextTarget` passes no
multiplier argument — so the claim's multiplier-preservation conjunct
fails for any multiplier other than 1000. -/
theorem getNextTarget_multiplier_counterexample :
    minutesTime.multiplier = 60000 ∧
    (minutesTime.getNextTarget 42).multiplier = 1000 ∧
    (minutesTime.getNextTarget 42).multiplier ≠ minutesTime.multiplier := by
  decide

/-- Claim C3 (amended): for either kind, `getNextTarget` produces a
successor whose id is the freshly generated one (hence differs from the
original's whenever the generated id is fresh), whose name, period, goal
and path equal the original's, and whose total progress is 0 — the
wordCount successor copies `progress` and sets `previousProgress` equal
to that copy, the time successor zeroes every accumulator; the time
successor's multiplier, however, is always the constructor default 1000,
not the original's. The originals are not mutated (the embedding is pure
and the source copies via spread before writing). -/
theorem getNextTarget_fresh_id_config_zero (wc : WordCountTarget) (tt : TimeTarget)
    (fidW fidT : Nat) (hW : fidW ≠ wc.id) (hT : fidT ≠ tt.id)
    (hnd : (wc.progress.map Prod.fst).Nodup) :
    ((wc.getNextTarget fidW).id ≠ wc.id ∧
     (wc.getNextTarget fidW).name = wc.name ∧
     (wc.getNextTarget fidW).period = wc.period ∧
     (wc.getNextTarget fidW).target = wc.target ∧
     (wc.getNextTarget fidW).path = wc.path ∧
     (wc.getNextTarget fidW).progress = wc.progress ∧
     (wc.getNextTarget fidW).previousProgress = wc.progress ∧
     (wc.getNextTarget fidW).getTotalProgress = 0) ∧
    ((tt.getNextTarget fidT).id ≠ tt.id ∧
     (tt.getNextTarget fidT).name = tt.name ∧
     (tt.getNextTarget fidT).period = tt.period ∧
     (tt.getNextTarget fidT).target = tt.target ∧
     (tt.getNextTarget fidT).path = tt.path ∧
     (tt.getNextTarget fidT).multiplier = 1000 ∧
     (∀ doc v, mapLookup (tt.getNextTarget fidT).progress doc = Option.some v → v = 0) ∧
     (tt.getNextTarget fidT).getTotalProgress = 0) := by
  refine ⟨⟨hW, rfl, rfl, rfl, rfl, rfl, rfl, nextTarget_total_zero_wc wc fidW hnd⟩,
          ⟨hT, rfl, rfl, rfl, rfl, rfl, ?_, nextTarget_total_zero_time tt fidT⟩⟩
  intro doc v h
  rw [TimeTarget.getNextTarget, mapLookup_map_zero] at h
  rcases hl : mapLookup tt.progress doc with _ | w
  · rw [hl] at h
    exact absurd h (by simp)
  · rw [hl] at h
    simpa using h.symm

/-- Witness for C3 at `sampleWC` and `sampleTime` with fresh id 42. -/
theorem getNextTarget_fresh_id_config_zero_witness :
    (sampleWC.getNextTarget 42).id ≠ sampleWC.id ∧
    (sampleWC.getNextTarget 42).getTotalProgress = 0 ∧
    (sampleTime.getNextTarget 42).id ≠ sampleTime.id ∧
    (sampleTime.getNextTarget 42).getTotalProgress = 0 :=
  ⟨(getNextTarget_fresh_id_config_zero sampleWC sampleTime 42 42 (by decide) (by decide)
      (by decide)).1.1,
   (getNextTarget_fresh_id_config_zero sampleWC sampleTime 42 42 (by decide) (by decide)
      (by decide)).1.2.2.2.2.2.2.2,
   (getNextTarget_fresh_id_config_zero sampleWC sampleTime 42 42 (by decide) (by decide)
      (by decide)).2.1,
   (getNextTarget_fresh_id_config_zero sampleWC sampleTime 42 42 (by decide) (by decide)
      (by decide)).2.2.2.2.2.2.2.2⟩

/-- Claim C9 counterexample: with a document focused but a stored focus
timestamp of 0, the source's truthiness guard
`if (this.activeFile && this.activeFileTimestamp)` fails and the function
returns 0, while the claimed formula `min(maxIdleMs, now - focusedSince)`
gives 5 (maxIdle 10, now 5). -/
theorem getElapsedTime_zero_timestamp_counterexample :
    getElapsedTimeOnActiveFile (Option.some "a.md") 0 10 5 = 0 ∧
    min (10 : Int) (5 - 0) = 5 := by
  decide

/-- Claim C9 (amended): `getElapsedTimeOnActiveFile` returns
`min(maxIdleMs, now - focusedSince)` when a document is focused and the
stored timestamp is nonzero (JS truthiness), returns 0 when no document
is focused or the timestamp is 0, and with a non-negative `maxIdleMs` its
result never exceeds `maxIdleMs` for any clock reading and timestamp. -/
theorem getElapsedTime_clamped (af : Option String) (ts maxIdle now : Int) :
    (af.isSome = true → ts ≠ 0 →
      getElapsedTimeOnActiveFile af ts maxIdle now = min maxIdle (now - ts)) ∧
    (af = Option.none ∨ ts = 0 →
      getElapsedTimeOnActiveFile af ts maxIdle now = 0) ∧
    (0 ≤ maxIdle → getElapsedTimeOnActiveFile af ts maxIdle now ≤ maxIdle) := by
  unfold getElapsedTimeOnActiveFile
  refine ⟨?_, ?_, ?_⟩
  · intro h1 h2
    rw [if_pos ⟨h1, h2⟩]
  · intro h
    rcases h with h | h
    · rw [if_neg]
      intro hc
      rw [h] at hc
      exact absurd hc.1 (by simp)
    · rw [if_neg]
      intro hc
      exact hc.2 h
  · intro h
    by_cases hc : af.isSome = true ∧ ts ≠ 0
    · rw [if_pos hc]
      exact min_le_left maxIdle (now - ts)
    · rw [if_neg hc]
      exact h

/-- Witness for C9 (amended): focused with nonzero timestamp yields the
clamped difference, unfocused yields 0, and the cap holds. -/
theorem getElapsedTime_clamped_witness :
    getElapsedTimeOnActiveFile (Option.some "a.md") 3 10 100 = min 10 (100 - 3) ∧
    getElapsedTimeOnActiveFile Option.none 3 10 100 = 0 ∧
    getElapsedTimeOnActiveFile (Option.some "a.md") 3 10 100 ≤ 10 :=
  ⟨(getElapsedTime_clamped (Option.some "a.md") 3 10 100).1 rfl (by decide),
   (getElapsedTime_clamped Option.none 3 10 100).2.1 (Or.inl rfl),
   (getElapsedTime_clamped (Option.some "a.md") 3 10 100).2.2 (by decide)⟩

theorem displayedSum_congr {p prev1 prev2 : Jmap}
    (h : ∀ kv ∈ p, mapLookup prev1 kv.1 = mapLookup prev2 kv.1) :
    displayedSum p prev1 = displayedSum p prev2 := by
  unfold displayedSum
  congr 1
  apply List.map_congr_left
  intro kv hkv
  rw [h kv hkv]

theorem displayedSum_append (a b prev : Jmap) :
    displayedSum (a ++ b) prev = displayedSum a prev + displayedSum b prev := by
  unfold displayedSum
  rw [List.map_append, List.sum_append]

theorem mapDel_append {α β : Type} [DecidableEq α] (a b : List (α × β)) (k : α) :
    mapDel (a ++ b) k = mapDel a k ++ mapDel b k := by
  unfold mapDel
  rw [List.filter_append]

theorem jmapSum_eq_displayedSum_nil (p : Jmap) : jmapSum p = displayedSum p [] := by
  unfold jmapSum displayedSum
  congr 1
  apply List.map_congr_left
  intro kv _
  simp [mapLookup]

theorem displayedSum_del (prev : Jmap) :
    ∀ (p : Jmap) (k : String) (v : Int), (p.map Prod.fst).Nodup →
      mapLookup p k = Option.some v →
      displayedSum p prev
        = displayedSum (mapDel p k) prev + (v - (mapLookup prev k).getD 0) := by
  intro p
  induction p with
  | nil =>
    intro k v _ h
    simp [mapLookup] at h
  | cons kv rest ih =>
    intro k v hnd h
    obtain ⟨k0, w⟩ := kv
    rw [List.map_cons, List.nodup_cons] at hnd
    rw [mapLookup] at h
    by_cases h0 : k0 = k
    · rw [if_pos h0] at h
      injection h with hw
      subst h0
      subst hw
      have hrest : mapLookup rest k0 = Option.none := by
        rw [mapLookup_eq_none_iff]
        intro kv hkv hk
        exact hnd.1 (List.mem_map.mpr ⟨kv, hkv, hk⟩)
      have hdel : mapDel ((k0, w) :: rest) k0 = rest := by
        have h1 : mapDel ((k0, w) :: rest) k0 = mapDel rest k0 := by
          simp [mapDel]
        rw [h1, mapDel_of_lookup_none hrest]
      rw [hdel]
      simp [displayedSum]
      omega
    · rw [if_neg h0] at h
      have hrec := ih k v hnd.2 h
      have hkeep : mapDel ((k0, w) :: rest) k = (k0, w) :: mapDel rest k := by
        simp [mapDel, h0]
      rw [hkeep]
      simp [displayedSum] at hrec ⊢
      omega

/-- Claim C7 counterexample: renaming a tracked document whose stored
progress value is 0 does not carry the 0 — the source computes
`progress[oldPath] || getWordCount(newFile)` and 0 is falsy, so the new
key receives the file's measured count (here 5) and the total progress
changes from 0 to 5. -/
theorem fileRename_zero_progress_counterexample :
    zeroWC.getTotalProgress = 0 ∧
    mapLookup (zeroWC.fileRename "a.md" "b.md" 5).progress "b.md" = Option.some 5 ∧
    (zeroWC.fileRename "a.md" "b.md" 5).getTotalProgress = 5 := by
  decide

/-- Claim C7 (amended): for a wordCount target tracking the new path,
renaming carries the stored progress value to the new key whenever it is
nonzero (JS truthiness; a stored 0 or a missing entry falls back to the
file's measured count) and carries `previousProgress[oldPath] || 0`; both
old keys are removed, and when the carried progress value is nonzero the
total progress is unchanged. For a time target the base implementation
carries `progress[oldPath] || 0` — faithful for every stored value
including 0 — removes the old key, and always preserves the total. -/
theorem fileRename_carries_entries_total_preserved
    (t : WordCountTarget) (u : TimeTarget) (oldPath newPath : String) (count v : Int)
    (hne : oldPath ≠ newPath)
    (htrack : isTrackingPath t.path newPath = true)
    (hold : mapLookup t.progress oldPath = Option.some v)
    (hv : v ≠ 0)
    (hnewP : mapLookup t.progress newPath = Option.none)
    (hnewPrev : mapLookup t.previousProgress newPath = Option.none)
    (hnd : (t.progress.map Prod.fst).Nodup)
    (htrackU : isTrackingPath u.path newPath = true)
    (hnewU : mapLookup u.progress newPath = Option.none)
    (hndU : (u.progress.map Prod.fst).Nodup) :
    (mapLookup (t.fileRename oldPath newPath count).progress newPath = Option.some v ∧
     mapLookup (t.fileRename oldPath newPath count).progress oldPath = Option.none ∧
     mapLookup (t.fileRename oldPath newPath count).previousProgress newPath
       = Option.some ((mapLookup t.previousProgress oldPath).getD 0) ∧
     mapLookup (t.fileRename oldPath newPath count).previousProgress oldPath
       = Option.none ∧
     (t.fileRename oldPath newPath count).getTotalProgress = t.getTotalProgress) ∧
    (mapLookup (u.fileRename oldPath newPath).progress newPath
       = Option.some ((mapLookup u.progress oldPath).getD 0) ∧
     mapLookup (u.fileRename oldPath newPath).progress oldPath = Option.none ∧
     (u.fileRename oldPath newPath).getTotalProgress = u.getTotalProgress) := by
  have hnewne : newPath ≠ oldPath := Ne.symm hne
  have hP : (t.fileRename oldPath newPath count).progress
      = mapDel (mapSet t.progress newPath v) oldPath := by
    unfold WordCountTarget.fileRename
    rw [if_pos htrack, hold, jsOr_some_of_ne count hv]
  have hPrev : (t.fileRename oldPath newPath count).previousProgress
      = mapDel (mapSet t.previousProgress newPath
          ((mapLookup t.previousProgress oldPath).getD 0)) oldPath := by
    unfold WordCountTarget.fileRename
    rw [if_pos htrack, jsOr_zero]
  have hUP : (u.fileRename oldPath newPath).progress
      = mapDel (mapSet u.progress newPath ((mapLookup u.progress oldPath).getD 0)) oldPath := by
    unfold TimeTarget.fileRename
    rw [if_pos htrackU, jsOr_zero]
  refine ⟨⟨?_, ?_, ?_, ?_, ?_⟩, ⟨?_, ?_, ?_⟩⟩
  · rw [hP, mapLookup_del_ne _ _ _ hnewne, mapLookup_set_self]
  · rw [hP, mapLookup_del_self]
  · rw [hPrev, mapLookup_del_ne _ _ _ hnewne, mapLookup_set_self]
  · rw [hPrev, mapLookup_del_self]
  · rw [getTotalProgress_eq_displayedSum, getTotalProgress_eq_displayedSum, hP, hPrev]
    rw [mapSet_of_lookup_none v hnewP, mapDel_append]
    have hkeepNew : mapDel [(newPath, v)] oldPath = [(newPath, v)] := by
      simp [mapDel, hnewne]
    rw [hkeepNew, displayedSum_append]
    have hPrevLookup : ∀ doc : String, doc ≠ oldPath → doc ≠ newPath →
        mapLookup (mapDel (mapSet t.previousProgress newPath
          ((mapLookup t.previousProgress oldPath).getD 0)) oldPath) doc
        = mapLookup t.previousProgress doc := by
      intro doc hdo hdn
      rw [mapLookup_del_ne _ _ _ hdo, mapLookup_set_ne _ _ _ _ hdn]
    have hcongr : displayedSum (mapDel t.progress oldPath)
        (mapDel (mapSet t.previousProgress newPath
          ((mapLookup t.previousProgress oldPath).getD 0)) oldPath)
        = displayedSum (mapDel t.progress oldPath) t.previousProgress := by
      apply displayedSum_congr
      intro kv hkv
      have hko : kv.1 ≠ oldPath := fst_ne_of_mem_mapDel hkv
      have hkn : kv.1 ≠ newPath := by
        intro hk
        have hmem := mem_of_mem_mapDel hkv
        rw [mapLookup_eq_none_iff] at hnewP
        exact hnewP kv hmem hk
      exact hPrevLookup kv.1 hko hkn
    rw [hcongr]
    have hsingle : displayedSum [(newPath, v)]
        (mapDel (mapSet t.previousProgress newPath
          ((mapLookup t.previousProgress oldPath).getD 0)) oldPath)
        = v - (mapLookup t.previousProgress oldPath).getD 0 := by
      unfold displayedSum
      simp only [List.map_cons, List.map_nil, List.sum_cons, List.sum_nil]
      rw [mapLookup_del_ne _ _ _ hnewne, mapLookup_set_self]
      simp
    rw [hsingle, displayedSum_del t.previousProgress t.progress oldPath v hnd hold]
  · rw [hUP, mapLookup_del_ne _ _ _ hnewne, mapLookup_set_self]
  · rw [hUP, mapLookup_del_self]
  · unfold TimeTarget.getTotalProgress
    rw [hUP, jmapSum_eq_displayedSum_nil, jmapSum_eq_displayedSum_nil]
    rw [mapSet_of_lookup_none _ hnewU, mapDel_append]
    have hkeepNew : mapDel [(newPath, (mapLookup u.progress oldPath).getD 0)] oldPath
        = [(newPath, (mapLookup u.progress oldPath).getD 0)] := by
      simp [mapDel, hnewne]
    rw [hkeepNew, displayedSum_append]
    rcases hu : mapLookup u.progress oldPath with _ | w
    · rw [mapDel_of_lookup_none hu]
      simp [displayedSum, mapLookup]
    · rw [displayedSum_del ([] : Jmap) u.progress oldPath w hndU hu]
      simp [displayedSum, mapLookup]

/-- Witness for C7 (amended) on `sampleWC` (progress value 7 at `a.md`)
and `sampleTime` (accumulated 250 ms at `a.md`), both renamed to `d.md`. -/
theorem fileRename_carries_entries_total_preserved_witness :
    mapLookup (sampleWC.fileRename "a.md" "d.md" 9).progress "d.md" = Option.some 7 ∧
    mapLookup (sampleWC.fileRename "a.md" "d.md" 9).progress "a.md" = Option.none ∧
    (sampleWC.fileRename "a.md" "d.md" 9).getTotalProgress = sampleWC.getTotalProgress ∧
    mapLookup (sampleTime.fileRename "a.md" "d.md").progress "d.md"
      = Option.some ((mapLookup sampleTime.progress "a.md").getD 0) ∧
    (sampleTime.fileRename "a.md" "d.md").getTotalProgress = sampleTime.getTotalProgress :=
  ⟨(fileRename_carries_entries_total_preserved sampleWC sampleTime "a.md" "d.md" 9 7
      (by decide) (by decide) (by decide) (by decide) (by decide) (by decide) (by decide)
      (by decide) (by decide) (by decide)).1.1,
   (fileRename_carries_entries_total_preserved sampleWC sampleTime "a.md" "d.md" 9 7
      (by decide) (by decide) (by decide) (by decide) (by decide) (by decide) (by decide)
      (by decide) (by decide) (by decide)).1.2.1,
   (fileRename_carries_entries_total_preserved sampleWC sampleTime "a.md" "d.md" 9 7
      (by decide) (by decide) (by decide) (by decide) (by decide) (by decide) (by decide)
      (by decide) (by decide) (by decide)).1.2.2.2.2,
   (fileRename_carries_entries_total_preserved sampleWC sampleTime "a.md" "d.md" 9 7
      (by decide) (by decide) (by decide) (by decide) (by decide) (by decide) (by decide)
      (by decide) (by decide) (by decide)).2.1,
   (fileRename_carries_entries_total_preserved sampleWC sampleTime "a.md" "d.md" 9 7
      (by decide) (by decide) (by decide) (by decide) (by decide) (by decide) (by decide)
      (by decide) (by decide) (by decide)).2.2.2⟩

theorem mem_of_mapLookup_some {α β : Type} [DecidableEq α] {m : List (α × β)} {k : α}
    {v : β} (h : mapLookup m k = Option.some v) : (k, v) ∈ m := by
  induction m with
  | nil => simp [mapLookup] at h
  | cons kv0 rest ih =>
    obtain ⟨k0, w⟩ := kv0
    rw [mapLookup] at h
    by_cases h0 : k0 = k
    · rw [if_pos h0] at h
      injection h with hw
      subst h0
      subst hw
      exact List.mem_cons_self _ _
    · rw [if_neg h0] at h
      exact List.mem_cons_of_mem _ (ih h)

theorem nonnegVals_set {m : Jmap} {k : String} {v : Int} (h : nonnegVals m) (hv : 0 ≤ v) :
    nonnegVals (mapSet m k v) := by
  intro kv hkv
  rcases mem_of_mem_mapSet hkv with hm | he
  · exact h kv hm
  · rw [he]
    exact hv

theorem nonnegVals_del {m : Jmap} {k : String} (h : nonnegVals m) :
    nonnegVals (mapDel m k) := fun kv hkv => h kv (mem_of_mem_mapDel hkv)

theorem jsOr_lookup_nonneg {m : Jmap} (h : nonnegVals m) (k : String) :
    0 ≤ jsOr (mapLookup m k) 0 := by
  rcases hl : mapLookup m k with _ | w
  · simp [jsOr]
  · rw [jsOr_zero]
    simpa using h (k, w) (mem_of_mapLookup_some hl)

theorem jmapSum_nonneg {m : Jmap} (h : nonnegVals m) : 0 ≤ jmapSum m := by
  unfold jmapSum
  apply List.sum_nonneg
  intro x hx
  rw [List.mem_map] at hx
  obtain ⟨kv, hkv, rfl⟩ := hx
  exact h kv hkv

theorem elapsed_nonneg (af : Option String) (ts maxIdle now : Int)
    (hm : 0 ≤ maxIdle) (ht : ts ≤ now) :
    0 ≤ getElapsedTimeOnActiveFile af ts maxIdle now := by
  unfold getElapsedTimeOnActiveFile
  by_cases hc : af.isSome = true ∧ ts ≠ 0
  · rw [if_pos hc]
    exact le_min hm (by omega)
  · rw [if_neg hc]

theorem timeEvent_preserves_nonneg (t : TimeTarget) (e : TimeEvent)
    (hok : timeEventOk e) (h : nonnegVals t.progress) :
    nonnegVals (t.applyEvent e).progress := by
  cases e with
  | create doc =>
    simp only [TimeTarget.applyEvent, TimeTarget.fileCreate]
    by_cases htrack : isTrackingPath t.path doc = true
    · rw [if_pos htrack]
      exact nonnegVals_set h le_rfl
    · rw [if_neg htrack]
      exact h
  | delete doc =>
    simp only [TimeTarget.applyEvent, TimeTarget.fileDelete]
    exact nonnegVals_del h
  | rename o n =>
    simp only [TimeTarget.applyEvent, TimeTarget.fileRename]
    by_cases htrack : isTrackingPath t.path n = true
    · rw [if_pos htrack]
      exact nonnegVals_del (nonnegVals_set h (jsOr_lookup_nonneg h o))
    · rw [if_neg htrack]
      exact nonnegVals_del h
  | modify doc af ts maxIdle now =>
    obtain ⟨hm, ht⟩ := hok
    simp only [TimeTarget.applyEvent, TimeTarget.fileModify]
    by_cases htrack : isTrackingPath t.path doc = true
    · rw [if_pos htrack]
      apply nonnegVals_set h
      have h1 := jsOr_lookup_nonneg h doc
      have h2 := elapsed_nonneg af ts maxIdle now hm ht
      omega
    · rw [if_neg htrack]
      exact h
  | nextPeriod fid =>
    simp only [TimeTarget.applyEvent, TimeTarget.getNextTarget]
    intro kv hkv
    rw [List.mem_map] at hkv
    obtain ⟨kv0, _, rfl⟩ := hkv
    exact le_rfl

/-- Claim C8: starting from a time target whose accumulators are all
non-negative, any sequence of the source's operations — `fileCreate`,
`fileDelete`, `fileRename`, `fileModify` accruing the clamped elapsed
delta, and `getNextTarget`'s zeroing — keeps every accumulator
non-negative, hence `getTotalProgress()` never goes negative, provided
each accrual happens with `maxIdleMs >= 0` and a clock reading no earlier
than the stored focus timestamp. -/
theorem timeTarget_total_progress_nonneg (t : TimeTarget) (evs : List TimeEvent)
    (hok : ∀ e ∈ evs, timeEventOk e) (h0 : nonnegVals t.progress) :
    nonnegVals (t.applyEvents evs).progress ∧
    0 ≤ (t.applyEvents evs).getTotalProgress := by
  have hmain : nonnegVals (t.applyEvents evs).progress := by
    induction evs generalizing t with
    | nil => exact h0
    | cons e rest ih =>
      unfold TimeTarget.applyEvents
      rw [List.foldl_cons]
      exact ih (t.applyEvent e) (fun e2 h2 => hok e2 (List.mem_cons_of_mem _ h2))
        (timeEvent_preserves_nonneg t e (hok e (List.mem_cons_self _ _)) h0)
  exact ⟨hmain, jmapSum_nonneg hmain⟩

/-- Witness for C8: a create, a clamped modify accrual, a rename and a
delete on `sampleTime` keep every accumulator and the total
non-negative. -/
theorem timeTarget_total_progress_nonneg_witness :
    nonnegVals (sampleTime.applyEvents
      [TimeEvent.create "b.md",
       TimeEvent.modify "a.md" (Option.some "a.md") 40 30000 100000,
       TimeEvent.rename "a.md" "c.md",
       TimeEvent.delete "b.md"]).progress ∧
    0 ≤ (sampleTime.applyEvents
      [TimeEvent.create "b.md",
       TimeEvent.modify "a.md" (Option.some "a.md") 40 30000 100000,
       TimeEvent.rename "a.md" "c.md",
       TimeEvent.delete "b.md"]).getTotalProgress :=
  timeTarget_total_progress_nonneg sampleTime
    [TimeEvent.create "b.md",
     TimeEvent.modify "a.md" (Option.some "a.md") 40 30000 100000,
     TimeEvent.rename "a.md" "c.md",
     TimeEvent.delete "b.md"]
    (by decide) (by decide)

theorem mapSet_tracked {tpath : String} {m : Jmap} {k : String} {v : Int}
    (h : ∀ kv ∈ m, isTrackingPath tpath kv.1 = true)
    (hk : isTrackingPath tpath k = true) :
    ∀ kv ∈ mapSet m k v, isTrackingPath tpath kv.1 = true := by
  intro kv hkv
  rcases mem_of_mem_mapSet hkv with hm | he
  · exact h kv hm
  · rw [he]
    exact hk

theorem mapDel_tracked {tpath : String} {m : Jmap} {k : String}
    (h : ∀ kv ∈ m, isTrackingPath tpath kv.1 = true) :
    ∀ kv ∈ mapDel m k, isTrackingPath tpath kv.1 = true :=
  fun kv hkv => h kv (mem_of_mem_mapDel hkv)

theorem updateProgress_tracked (t : WordCountTarget) (doc : String) (count : Int)
    (h : trackedKeysWC t) : trackedKeysWC (t.updateProgress doc count) := by
  obtain ⟨h1, h2⟩ := h
  unfold WordCountTarget.updateProgress
  by_cases htrack : isTrackingPath t.path doc = true
  · rw [if_pos htrack]
    refine ⟨?_, ?_⟩
    · show ∀ kv ∈ mapSet t.progress doc count, isTrackingPath t.path kv.1 = true
      exact mapSet_tracked h1 htrack
    · show ∀ kv ∈ (if mapLookup t.progress doc = Option.some (-1) then
          mapSet t.previousProgress doc count else t.previousProgress),
        isTrackingPath t.path kv.1 = true
      by_cases hs : mapLookup t.progress doc = Option.some (-1)
      · rw [if_pos hs]
        exact mapSet_tracked h2 htrack
      · rw [if_neg hs]
        exact h2
  · rw [if_neg htrack]
    exact ⟨h1, h2⟩

theorem wcEvent_preserves_tracked (t : WordCountTarget) (e : WCEvent)
    (h : trackedKeysWC t) : trackedKeysWC (t.applyEvent e) := by
  cases e with
  | create doc count =>
    simp only [WordCountTarget.applyEvent, WordCountTarget.fileCreate]
    exact updateProgress_tracked t doc count h
  | modify doc count =>
    simp only [WordCountTarget.applyEvent, WordCountTarget.fileModify]
    exact updateProgress_tracked t doc count h
  | openFile doc count =>
    simp only [WordCountTarget.applyEvent, WordCountTarget.fileOpen]
    by_cases hs : mapLookup t.progress doc = Option.some (-1)
    · rw [if_pos hs]
      exact updateProgress_tracked t doc count h
    · rw [if_neg hs]
      exact h
  | rename o n count =>
    obtain ⟨h1, h2⟩ := h
    simp only [WordCountTarget.applyEvent, WordCountTarget.fileRename]
    by_cases htrack : isTrackingPath t.path n = true
    · rw [if_pos htrack]
      refine ⟨?_, ?_⟩
      · show ∀ kv ∈ mapDel (mapSet t.progress n (jsOr (mapLookup t.progress o) count)) o,
          isTrackingPath t.path kv.1 = true
        exact mapDel_tracked (mapSet_tracked h1 htrack)
      · show ∀ kv ∈ mapDel (mapSet t.previousProgress n
            (jsOr (mapLookup t.previousProgress o) 0)) o,
          isTrackingPath t.path kv.1 = true
        exact mapDel_tracked (mapSet_tracked h2 htrack)
    · rw [if_neg htrack]
      refine ⟨?_, ?_⟩
      · show ∀ kv ∈ mapDel t.progress o, isTrackingPath t.path kv.1 = true
        exact mapDel_tracked h1
      · show ∀ kv ∈ mapDel t.previousProgress o, isTrackingPath t.path kv.1 = true
        exact mapDel_tracked h2
  | delete doc =>
    obtain ⟨h1, h2⟩ := h
    simp only [WordCountTarget.applyEvent, WordCountTarget.fileDelete]
    refine ⟨?_, ?_⟩
    · show ∀ kv ∈ mapDel t.progress doc, isTrackingPath t.path kv.1 = true
      exact mapDel_tracked h1
    · show ∀ kv ∈ mapDel t.previousProgress doc, isTrackingPath t.path kv.1 = true
      exact mapDel_tracked h2
  | update doc count =>
    simp only [WordCountTarget.applyEvent]
    exact updateProgress_tracked t doc count h

theorem timeEvent_preserves_tracked (t : TimeTarget) (e : TimeEvent)
    (h : trackedKeysTime t) : trackedKeysTime (t.applyEvent e) := by
  have h1 : ∀ kv ∈ t.progress, isTrackingPath t.path kv.1 = true := h
  cases e with
  | create doc =>
    simp only [TimeTarget.applyEvent, TimeTarget.fileCreate]
    by_cases htrack : isTrackingPath t.path doc = true
    · rw [if_pos htrack]
      show ∀ kv ∈ mapSet t.progress doc 0, isTrackingPath t.path kv.1 = true
      exact mapSet_tracked h1 htrack
    · rw [if_neg htrack]
      exact h
  | delete doc =>
    simp only [TimeTarget.applyEvent, TimeTarget.fileDelete]
    show ∀ kv ∈ mapDel t.progress doc, isTrackingPath t.path kv.1 = true
    exact mapDel_tracked h1
  | rename o n =>
    simp only [TimeTarget.applyEvent, TimeTarget.fileRename]
    by_cases htrack : isTrackingPath t.path n = true
    · rw [if_pos htrack]
      show ∀ kv ∈ mapDel (mapSet t.progress n (jsOr (mapLookup t.progress o) 0)) o,
        isTrackingPath t.path kv.1 = true
      exact mapDel_tracked (mapSet_tracked h1 htrack)
    · rw [if_neg htrack]
      show ∀ kv ∈ mapDel t.progress o, isTrackingPath t.path kv.1 = true
      exact mapDel_tracked h1
  | modify doc af ts maxIdle now =>
    simp only [TimeTarget.applyEvent, TimeTarget.fileModify]
    by_cases htrack : isTrackingPath t.path doc = true
    · rw [if_pos htrack]
      show ∀ kv ∈ mapSet t.progress doc
          (jsOr (mapLookup t.progress doc) 0 + getElapsedTimeOnActiveFile af ts maxIdle now),
        isTrackingPath t.path kv.1 = true
      exact mapSet_tracked h1 htrack
    · rw [if_neg htrack]
      exact h
  | nextPeriod fid =>
    simp only [TimeTarget.applyEvent, TimeTarget.getNextTarget]
    show ∀ kv ∈ t.progress.map (fun kv => (kv.1, (0 : Int))),
      isTrackingPath t.path kv.1 = true
    intro kv hkv
    rw [List.mem_map] at hkv
    obtain ⟨kv0, hkv0, rfl⟩ := hkv
    exact h1 kv0 hkv0

/-- Claim C10: every event operation (`fileCreate`, `fileModify`,
`fileOpen`, `fileRename`, `fileDelete`, `updateProgress`, and the time
target's clamped accrual and reset zeroing) only writes progress entries
for tracked paths, so from any state whose `progress` keys (and
`previousProgress` keys, for wordCount) all satisfy `isTrackingPath`,
any sequence of these operations preserves that invariant, for both
target kinds. -/
theorem tracked_keys_invariant (t : WordCountTarget) (u : TimeTarget)
    (wevs : List WCEvent) (tevs : List TimeEvent)
    (hw : trackedKeysWC t) (hu : trackedKeysTime u) :
    trackedKeysWC (t.applyEvents wevs) ∧ trackedKeysTime (u.applyEvents tevs) := by
  constructor
  · induction wevs generalizing t with
    | nil => exact hw
    | cons e rest ih =>
      unfold WordCountTarget.applyEvents
      rw [List.foldl_cons]
      exact ih (t.applyEvent e) (wcEvent_preserves_tracked t e hw)
  · induction tevs generalizing u with
    | nil => exact hu
    | cons e rest ih =>
      unfold TimeTarget.applyEvents
      rw [List.foldl_cons]
      exact ih (u.applyEvent e) (timeEvent_preserves_tracked u e hu)

/-- Witness for C10: a mixed event sequence on `sampleWC` (path "") and
`sampleTime` keeps every stored key tracked. -/
theorem tracked_keys_invariant_witness :
    trackedKeysWC (sampleWC.applyEvents
      [WCEvent.create "n.md" 12, WCEvent.rename "a.md" "m.md" 4,
       WCEvent.openFile "b.md" 3, WCEvent.delete "c.md", WCEvent.update "m.md" 8]) ∧
    trackedKeysTime (sampleTime.applyEvents
      [TimeEvent.create "n.md",
       TimeEvent.modify "a.md" (Option.some "a.md") 40 30000 100000,
       TimeEvent.nextPeriod 9]) :=
  tracked_keys_invariant sampleWC sampleTime
    [WCEvent.create "n.md" 12, WCEvent.rename "a.md" "m.md" 4,
     WCEvent.openFile "b.md" 3, WCEvent.delete "c.md", WCEvent.update "m.md" 8]
    [TimeEvent.create "n.md",
     TimeEvent.modify "a.md" (Option.some "a.md") 40 30000 100000,
     TimeEvent.nextPeriod 9]
    (by decide) (by decide)

theorem list_get?_set_self {α : Type} (l : List α) (i : Nat) (b : α) (h : i < l.length) :
    (l.set i b).get? i = Option.some b := by
  induction l generalizing i with
  | nil => simp at h
  | cons c rest ih =>
    cases i with
    | zero => rfl
    | succ i =>
      rw [List.set_cons_succ, List.get?_cons_succ]
      exact ih i (by simpa using h)

theorem list_get?_set_ne {α : Type} (l : List α) (i j : Nat) (b : α) (h : j ≠ i) :
    (l.set i b).get? j = l.get? j := by
  induction l generalizing i j with
  | nil => simp
  | cons c rest ih =>
    cases i with
    | zero =>
      cases j with
      | zero => exact absurd rfl h
      | succ j => rfl
    | succ i =>
      cases j with
      | zero => rfl
      | succ j =>
        rw [List.set_cons_succ, List.get?_cons_succ, List.get?_cons_succ]
        exact ih i j (fun he => h (by rw [he]))

theorem list_map_set {α β : Type} (l : List α) (i : Nat) (b : α) (f : α → β) :
    (l.set i b).map f = (l.map f).set i (f b) := by
  induction l generalizing i with
  | nil => rfl
  | cons c rest ih =>
    cases i with
    | zero => rfl
    | succ i =>
      rw [List.set_cons_succ, List.map_cons, List.map_cons, List.set_cons_succ, ih]

theorem nodup_set_of_not_mem {α : Type} (l : List α) (i : Nat) (b : α)
    (hnd : l.Nodup) (hb : b ∉ l) : (l.set i b).Nodup := by
  induction l generalizing i with
  | nil => simp
  | cons c rest ih =>
    rw [List.nodup_cons] at hnd
    cases i with
    | zero =>
      rw [List.set_cons_zero, List.nodup_cons]
      exact ⟨fun hmem => hb (List.mem_cons_of_mem _ hmem), hnd.2⟩
    | succ i =>
      rw [List.set_cons_succ, List.nodup_cons]
      constructor
      · intro hmem
        rcases List.mem_or_eq_of_mem_set hmem with hm | he
        · exact hnd.1 hm
        · exact hb (by rw [he]; exact List.mem_cons_self _ _)
      · exact ih i hnd.2 (fun hm => hb (List.mem_cons_of_mem _ hm))

theorem set_ids_ne (l : List Target) (b tdel : Target) (i : Nat)
    (hnd : (l.map Target.id).Nodup) (hget : l.get? i = Option.some tdel)
    (hb : b.id ≠ tdel.id) :
    ∀ x ∈ l.set i b, x.id ≠ tdel.id := by
  induction l generalizing i with
  | nil => simp at hget
  | cons c rest ih =>
    rw [List.map_cons, List.nodup_cons] at hnd
    cases i with
    | zero =>
      rw [List.get?_cons_zero] at hget
      injection hget with hc
      subst hc
      rw [List.set_cons_zero]
      intro x hx
      rcases List.mem_cons.mp hx with he | hm
      · rw [he]
        exact hb
      · intro hid
        exact hnd.1 (List.mem_map.mpr ⟨x, hm, hid⟩)
    | succ i =>
      rw [List.get?_cons_succ] at hget
      rw [List.set_cons_succ]
      intro x hx
      rcases List.mem_cons.mp hx with he | hm
      · rw [he]
        intro hid
        have htm : tdel ∈ rest := List.get?_mem hget
        exact hnd.1 (List.mem_map.mpr ⟨tdel, htm, hid.symm⟩)
      · exact ih i hnd.2 hget x hm

theorem deleteGo_noop {l : List Target} {tid : Nat} (h : ∀ t ∈ l, t.id ≠ tid) :
    ∀ (fuel i : Nat), deleteGo fuel l tid i = l := by
  intro fuel
  induction fuel with
  | zero => intro i; rfl
  | succ fuel ih =>
    intro i
    rw [deleteGo]
    by_cases hi : i < l.length
    · rw [dif_pos hi, if_neg (h (l.get ⟨i, hi⟩) (l.get_mem i hi))]
      exact ih (i + 1)
    · rw [dif_neg hi]

theorem deleteTarget_noop {l : List Target} {tid : Nat} (h : ∀ t ∈ l, t.id ≠ tid) :
    deleteTarget l tid = l :=
  deleteGo_noop h l.length 0

theorem Target.getNextTarget_id (t : Target) (fid : Nat) : (t.getNextTarget fid).id = fid := by
  cases t <;> rfl

theorem resetGo_spec :
    ∀ (fuel : Nat) (st : MgrState) (i : Nat) (date weekday : Int),
      MgrInv st → st.targets.length ≤ i + fuel →
      (resetGo fuel date weekday i st).targets.length = st.targets.length ∧
      (∀ j, j < i →
        (resetGo fuel date weekday i st).targets.get? j = st.targets.get? j) ∧
      (∀ j t', st.targets.get? j = Option.some t' → i ≤ j →
        (dueTarget weekday st.weeklyResetDay t' = false →
          (resetGo fuel date weekday i st).targets.get? j = Option.some t') ∧
        (dueTarget weekday st.weeklyResetDay t' = true →
          ∃ fid, st.nextId ≤ fid ∧
            (resetGo fuel date weekday i st).targets.get? j
              = Option.some (t'.getNextTarget fid))) := by
  intro fuel
  induction fuel with
  | zero =>
    intro st i date weekday hinv hlen
    refine ⟨rfl, fun j hj => rfl, ?_⟩
    intro j t' hget hij
    have hnone : st.targets.get? j = Option.none := List.get?_eq_none.mpr (by omega)
    rw [hget] at hnone
    simp at hnone
  | succ fuel ih =>
    intro st i date weekday hinv hlen
    rw [resetGo]
    by_cases hi : i < st.targets.length
    · rw [dif_pos hi]
      have htid : (st.targets.get ⟨i, hi⟩).id < st.nextId :=
        hinv.2 _ (st.targets.get_mem i hi)
      by_cases hdue : dueTarget weekday st.weeklyResetDay (st.targets.get ⟨i, hi⟩) = true
      · rw [if_pos hdue]
        have hbid : ((st.targets.get ⟨i, hi⟩).getNextTarget st.nextId).id = st.nextId :=
          Target.getNextTarget_id _ _
        have hdelnoop : deleteTarget
            (st.targets.set i ((st.targets.get ⟨i, hi⟩).getNextTarget st.nextId))
            (st.targets.get ⟨i, hi⟩).id
            = st.targets.set i ((st.targets.get ⟨i, hi⟩).getNextTarget st.nextId) := by
          apply deleteTarget_noop
          apply set_ids_ne st.targets _ _ i hinv.1 (List.get?_eq_get hi)
          rw [hbid]
          omega
        have hinv' : MgrInv
            { st with
              targets := deleteTarget
                (st.targets.set i ((st.targets.get ⟨i, hi⟩).getNextTarget st.nextId))
                (st.targets.get ⟨i, hi⟩).id,
              nextId := st.nextId + 1,
              history := archiveTarget st.history (st.targets.get ⟨i, hi⟩) date } := by
          refine ⟨?_, ?_⟩
          · show (List.map Target.id (deleteTarget
              (st.targets.set i ((st.targets.get ⟨i, hi⟩).getNextTarget st.nextId))
              (st.targets.get ⟨i, hi⟩).id)).Nodup
            rw [hdelnoop, list_map_set]
            apply nodup_set_of_not_mem _ _ _ hinv.1
            rw [hbid]
            intro hmem
            rw [List.mem_map] at hmem
            obtain ⟨x, hx, hxid⟩ := hmem
            have := hinv.2 x hx
            omega
          · intro x hx
            show x.id < st.nextId + 1
            rw [hdelnoop] at hx
            rcases List.mem_or_eq_of_mem_set hx with hm | he
            · have := hinv.2 x hm
              omega
            · rw [he, hbid]
              omega
        have hlen' : (deleteTarget
            (st.targets.set i ((st.targets.get ⟨i, hi⟩).getNextTarget st.nextId))
            (st.targets.get ⟨i, hi⟩).id).length ≤ (i + 1) + fuel := by
          rw [hdelnoop, List.length_set]
          omega
        obtain ⟨ihlen, ihlt, ihge⟩ := ih _ (i + 1) date weekday hinv' hlen'
        refine ⟨?_, ?_, ?_⟩
        · rw [ihlen]
          show (deleteTarget _ _).length = _
          rw [hdelnoop, List.length_set]
        · intro j hj
          rw [ihlt j (by omega)]
          show (deleteTarget _ _).get? j = _
          rw [hdelnoop, list_get?_set_ne _ _ _ _ (by omega)]
        · intro j t' hget hij
          by_cases hji : j = i
          · subst hji
            have ht0 : t' = st.targets.get ⟨j, hi⟩ := by
              have h2 := (List.get?_eq_get hi).symm.trans hget
              injection h2 with h3
              exact h3.symm
            constructor
            · intro hfalse
              rw [ht0] at hfalse
              rw [hfalse] at hdue
              simp at hdue
            · intro _
              refine ⟨st.nextId, le_rfl, ?_⟩
              rw [ihlt j (by omega)]
              show (deleteTarget _ _).get? j = _
              rw [hdelnoop, list_get?_set_self _ _ _ hi, ht0]
          · have hij1 : i + 1 ≤ j := by omega
            have hget' : (deleteTarget
                (st.targets.set i ((st.targets.get ⟨i, hi⟩).getNextTarget st.nextId))
                (st.targets.get ⟨i, hi⟩).id).get? j = Option.some t' := by
              rw [hdelnoop, list_get?_set_ne _ _ _ _ (by omega)]
              exact hget
            obtain ⟨hf, htr⟩ := ihge j t' hget' hij1
            refine ⟨hf, ?_⟩
            intro hd
            obtain ⟨fid, hfid, hres⟩ := htr hd
            have hfid2 : st.nextId + 1 ≤ fid := hfid
            exact ⟨fid, by omega, hres⟩
      · rw [if_neg hdue]
        obtain ⟨ihlen, ihlt, ihge⟩ := ih st (i + 1) date weekday hinv (by omega)
        refine ⟨ihlen, fun j hj => ihlt j (by omega), ?_⟩
        intro j t' hget hij
        by_cases hji : j = i
        · subst hji
          have ht0 : t' = st.targets.get ⟨j, hi⟩ := by
            have h2 := (List.get?_eq_get hi).symm.trans hget
            injection h2 with h3
            exact h3.symm
          constructor
          · intro _
            rw [ihlt j (by omega)]
            exact hget
          · intro htrue
            rw [ht0] at htrue
            exact absurd htrue hdue
        · exact ihge j t' hget (by omega)
    · rw [dif_neg hi]
      refine ⟨rfl, fun j hj => rfl, ?_⟩
      intro j t' hget hij
      have hnone : st.targets.get? j = Option.none := List.get?_eq_none.mpr (by omega)
      rw [hget] at hnone
      simp at hnone

/-- Claim C5: during a reset pass, archival is skipped — the history
store is left untouched — for any target with `period = none` and for any
due target whose `getTotalProgress()` is 0 at reset time; a `none`-period
target is also never due, hence never replaced or archived; yet under the
manager's id discipline every due target is still replaced in the
registry, at its position, by its `getNextTarget` successor built from a
fresh id, while targets that are not due stay in place. -/
theorem resetTargets_archival_skip_and_replace :
    (∀ (h : History) (t : Target) (date : Int), t.period = Period.none →
        archiveTarget h t date = h) ∧
    (∀ (h : History) (t : Target) (date : Int), t.getTotalProgress = 0 →
        archiveTarget h t date = h) ∧
    (∀ (weekday wrd : Int) (t : Target), t.period = Period.none →
        dueTarget weekday wrd t = false) ∧
    (∀ (st : MgrState) (date : Int) (j : Nat) (t' : Target), MgrInv st →
        st.targets.get? j = Option.some t' →
        (dueTarget (weekdayOf date) st.weeklyResetDay t' = false →
          (resetTargets st date).targets.get? j = Option.some t') ∧
        (dueTarget (weekdayOf date) st.weeklyResetDay t' = true →
          ∃ fid, st.nextId ≤ fid ∧
            (resetTargets st date).targets.get? j
              = Option.some (t'.getNextTarget fid))) := by
  refine ⟨?_, ?_, ?_, ?_⟩
  · intro h t date hp
    unfold archiveTarget
    rw [if_pos hp]
  · intro h t date htot
    unfold archiveTarget
    by_cases hp : t.period = Period.none
    · rw [if_pos hp]
    · rw [if_neg hp, if_pos htot]
  · intro weekday wrd t hp
    simp [dueTarget, hp]
  · intro st date j t' hinv hget
    exact (resetGo_spec st.targets.length st 0 date (weekdayOf date) hinv
      (by omega)).2.2 j t' hget (Nat.zero_le j)

/-- Witness for C5 on `zeroMgr`: a `none`-period target and a
zero-progress target archive to an unchanged history, the `none`-period
target is not due, and the due zero-progress daily target at position 0
is still replaced by its successor. -/
theorem resetTargets_archival_skip_and_replace_witness :
    archiveTarget zeroMgr.history (Target.wc noneWC) 0 = zeroMgr.history ∧
    archiveTarget zeroMgr.history (Target.wc zeroWC) 5 = zeroMgr.history ∧
    dueTarget 3 0 (Target.wc noneWC) = false ∧
    (∃ fid, zeroMgr.nextId ≤ fid ∧
      (resetTargets zeroMgr 0).targets.get? 0
        = Option.some ((Target.wc zeroWC).getNextTarget fid)) :=
  ⟨resetTargets_archival_skip_and_replace.1 zeroMgr.history (Target.wc noneWC) 0
     (by decide),
   resetTargets_archival_skip_and_replace.2.1 zeroMgr.history (Target.wc zeroWC) 5
     (by decide),
   resetTargets_archival_skip_and_replace.2.2.1 3 0 (Target.wc noneWC) (by decide),
   (resetTargets_archival_skip_and_replace.2.2.2 zeroMgr 0 0 (Target.wc zeroWC)
     (by decide) (by decide)).2 (by decide)⟩

/-- Claim C4 counterexample: with `lastReset` five daily boundaries old
(hour 0, clock at hour 125, reset hour 0, one daily wordCount target with
5 words of progress), the missed-boundary condition holds, yet the code's
single catch-up pass is invoked with the stale `lastReset` instant — the
archive lands in the day-0 bucket — whereas a pass "for the most recent
missed boundary" (day 5, per `checkMissedResetsMostRecent`, written from
the spec's words) would archive into the day-5 bucket. -/
theorem checkMissedResets_date_counterexample :
    staleMgr.lastReset < getNextResetDate staleMgr.dailyResetHour 125 - 24 ∧
    (checkMissedResets staleMgr 125).history
      = [((Period.daily, 0, TKind.wordCount), (100, 5))] ∧
    (checkMissedResetsMostRecent staleMgr 125).history
      = [((Period.daily, 5, TKind.wordCount), (100, 5))] ∧
    checkMissedResets staleMgr 125 ≠ checkMissedResetsMostRecent staleMgr 125 := by
  decide

/-- Claim C4 (amended): at startup `checkMissedResets` compares the
persisted `lastReset` with the most recent reset instant that has already
elapsed; it performs at most one reset-and-archive pass regardless of how
many boundaries were missed — exactly one, invoked with the persisted
`lastReset` instant (not the most recent missed boundary), when at least
one boundary was missed, and none otherwise — and then sets `lastReset`
to the most recent elapsed boundary, so its work is bounded independently
of the backlog. -/
theorem checkMissedResets_single_bounded_pass (st : MgrState) (now : Int) :
    (checkMissedResets st now
        = { st with lastReset := getNextResetDate st.dailyResetHour now - 24 } ∨
     checkMissedResets st now
        = { resetTargets st st.lastReset with
            lastReset := getNextResetDate st.dailyResetHour now - 24 }) ∧
    (checkMissedResets st now).lastReset
      = getNextResetDate st.dailyResetHour now - 24 ∧
    (st.lastReset < getNextResetDate st.dailyResetHour now - 24 →
      checkMissedResets st now
        = { resetTargets st st.lastReset with
            lastReset := getNextResetDate st.dailyResetHour now - 24 }) ∧
    (¬st.lastReset < getNextResetDate st.dailyResetHour now - 24 →
      checkMissedResets st now
        = { st with lastReset := getNextResetDate st.dailyResetHour now - 24 }) := by
  unfold checkMissedResets
  dsimp only
  by_cases hm : st.lastReset < getNextResetDate st.dailyResetHour now - 24
  · rw [if_pos hm]
    exact ⟨Or.inr rfl, rfl, fun _ => rfl, fun hc => absurd hm hc⟩
  · rw [if_neg hm]
    exact ⟨Or.inl rfl, rfl, fun hc => absurd hc hm, fun _ => rfl⟩

/-- Witness for C4 (amended) at `staleMgr` with the clock at hour 125:
the missed-boundary branch applies, and `lastReset` becomes hour 120. -/
theorem checkMissedResets_single_bounded_pass_witness :
    checkMissedResets staleMgr 125
      = { resetTargets staleMgr staleMgr.lastReset with
          lastReset := getNextResetDate staleMgr.dailyResetHour 125 - 24 } ∧
    (checkMissedResets staleMgr 125).lastReset = 120 :=
  ⟨(checkMissedResets_single_bounded_pass staleMgr 125).2.2.1 (by decide),
   (checkMissedResets_single_bounded_pass staleMgr 125).2.1⟩

/-- Claim C6: evaluation of `getYearProgress` on a history holding a
single weekly wordCount entry at day 10 (goal sum 3, progress sum 5) over
the day range 0..20. The output has one entry per day in chronological
order, but the day 3 days after the weekly entry reads zero — not the
entry's values as claimed — while the day 8 days before it still reads
the entry's values: the backward walk carries the entry to arbitrarily
earlier days because the 7-day clearing condition compares
`currDate - prevWeekResult.date`, which is negative throughout, so it
never fires (contradicting the source's own comment). For `daily` the
gap days read zero as claimed. -/
theorem getYearProgress_weekly_backfill_eval :
    (getYearProgress weeklyHist Period.weekly TKind.wordCount 0 20).length = 21 ∧
    (getYearProgress weeklyHist Period.weekly TKind.wordCount 0 20).get? 10
      = Option.some ⟨10, 3, 5⟩ ∧
    (getYearProgress weeklyHist Period.weekly TKind.wordCount 0 20).get? 13
      = Option.some ⟨13, 0, 0⟩ ∧
    (getYearProgress weeklyHist Period.weekly TKind.wordCount 0 20).get? 2
      = Option.some ⟨2, 3, 5⟩ ∧
    (getYearProgress weeklyHist Period.daily TKind.wordCount 0 20).get? 13
      = Option.some ⟨13, 0, 0⟩ := by
  decide
